import Mathlib

/-!
Shallow embedding of `glibc_version_header_gen.py`: a generator of
per-glibc-version headers that pin every symbol to a historical version
via `.symver` directives and poison symbols absent from a version.

The pure logic of the script is translated here definition by definition:
`Version` and its comparisons, the patch window table of `apply_patches`,
the export-line parsing and merge loop of
`extract_versions_from_installed_folder`, the librt clock exclusion
window, the union/missing computation of `main`, and
`generate_header_string`.  Filesystem and subprocess boundaries
(`find`, `readelf`) are modelled by passing each object file's name and
its list of export lines as explicit input.
-/

/-- Version value type of the script: triple (major, minor, patch),
with `patch` defaulting to 0 when the constructor gets two arguments. -/
structure Version where
  major : Nat
  minor : Nat
  patch : Nat
deriving DecidableEq

/-- Two-argument form of the Python constructor `Version(a, b)`,
which sets `patch = 0`. -/
def Version.mk2 (a b : Nat) : Version :=
  { major := a, minor := b, patch := 0 }

/-- Python `__lt__`: lexicographic comparison of the tuples
`(major, minor, patch)`. -/
def Version.lt (x y : Version) : Prop :=
  x.major < y.major ∨
    (x.major = y.major ∧
      (x.minor < y.minor ∨ (x.minor = y.minor ∧ x.patch < y.patch)))

/-- Python `__le__`: lexicographic tuple comparison, allowing equality
in the last component. -/
def Version.le (x y : Version) : Prop :=
  x.major < y.major ∨
    (x.major = y.major ∧
      (x.minor < y.minor ∨ (x.minor = y.minor ∧ x.patch ≤ y.patch)))

instance (x y : Version) : Decidable (Version.lt x y) := by
  unfold Version.lt; exact inferInstance

instance (x y : Version) : Decidable (Version.le x y) := by
  unfold Version.le; exact inferInstance

/-- Python `__hash__`: a hash of the tuple `(major, minor, patch)`. -/
def Version.pyHash (v : Version) : UInt64 :=
  hash (v.major, v.minor, v.patch)

/-- The `patches_table` dictionary of `apply_patches`, in source order:
patch file name together with the inclusive window `x <= version <= y`. -/
def patches_table : List (String × Version × Version) :=
  [ ("extern_inline_addition.diff",      ⟨2,  5, 0⟩, ⟨2, 5, 1⟩),
    ("fix_obstack_compat.diff",          ⟨2,  5, 0⟩, ⟨2, 17, 0⟩),
    ("no-pattern-rule-mixing.diff",      ⟨2,  5, 0⟩, ⟨2, 10, 2⟩),
    ("fix_linker_failure.diff",          ⟨2,  5, 0⟩, ⟨2, 9, 0⟩),
    ("remove_ctors_dtors.diff",          ⟨2,  5, 0⟩, ⟨2, 12, 2⟩),
    ("fix_bad_version_checks_2.5.diff",  ⟨2,  5, 0⟩, ⟨2, 6, 1⟩),
    ("fix_bad_version_checks_2.9.diff",  ⟨2,  7, 0⟩, ⟨2, 9, 0⟩),
    ("fix_bad_version_checks_2.10.diff", ⟨2, 10, 0⟩, ⟨2, 12, 2⟩),
    ("fix_bad_version_checks.diff",      ⟨2, 13, 0⟩, ⟨2, 18, 0⟩),
    ("hvsep-remove.diff",                ⟨2, 16, 0⟩, ⟨2, 16, 0⟩),
    ("cvs-common-symbols.diff",          ⟨2, 23, 0⟩, ⟨2, 25, 0⟩) ]

/-- The patches that `apply_patches` applies for `version`: every table
entry whose window `v_limits[0] <= version <= v_limits[1]` contains the
version, in table order. -/
def apply_patches_list (version : Version) : List String :=
  (patches_table.filter
    (fun e => decide (Version.le e.2.1 version) && decide (Version.le version e.2.2))).map
    Prod.fst

/-- Model of Python `s.split("@@")` on a character list: splits at each
leftmost non-overlapping occurrence of the two-character separator,
keeping empty fields. -/
def split_on_atat : List Char → List (List Char)
  | '@' :: '@' :: rest => [] :: split_on_atat rest
  | c :: rest =>
    match split_on_atat rest with
    | [] => [[c]]
    | p :: ps => (c :: p) :: ps
  | [] => [[]]

/-- Model of Python `s.split("/")` on a character list, keeping empty
fields. -/
def split_on_slash : List Char → List (List Char)
  | [] => [[]]
  | c :: rest =>
    if c = '/' then [] :: split_on_slash rest
    else
      match split_on_slash rest with
      | [] => [[c]]
      | p :: ps => (c :: p) :: ps

/-- Line parsing step of the merge loop, `sym, ver = line.split("@@")`:
succeeds exactly when the split yields two fields, otherwise the Python
tuple unpacking raises. -/
def parse_export_line (line : String) : Option (String × String) :=
  match split_on_atat line.data with
  | [s, v] => some (String.mk s, String.mk v)
  | _ => none

/-- A symbol table, the `syms` dictionary of the script: an association
list from symbol name to version string, in insertion order. -/
abbrev SymTable : Type := List (String × String)

/-- Key list of a symbol table, modelling `syms.keys()`. -/
def keys (t : SymTable) : List String :=
  (t : List (String × String)).map Prod.fst

/-- Dictionary lookup `syms[sym]` as an option. -/
def lookupV (t : SymTable) (s : String) : Option String :=
  ((t : List (String × String)).find? (fun p => p.1 == s)).map Prod.snd

/-- Dictionary lookup `syms[sym]`, defaulting to the empty string; only
used at keys of the table, where the default never applies. -/
def lookupD (t : SymTable) (s : String) : String :=
  (lookupV t s).getD ""

/-- Failure modes of `extract_versions_from_installed_folder`: a line
that does not unpack as `sym, ver = line.split("@@")`, or the
`duplicate incompatible symbol versions found` exception carrying the
collected `dupes` list. -/
inductive ExtractError where
  | malformed (line : String)
  | conflicts (dupes : List String)
deriving DecidableEq

/-- The merge loop of the extractor: for each line, record the first
version seen for a symbol name, and append the line to `dupes` when the
name was already recorded with a different version. -/
def merge_loop : List String → SymTable → List String →
    Except ExtractError (SymTable × List String)
  | [], syms, dupes => Except.ok (syms, dupes)
  | line :: rest, syms, dupes =>
    match parse_export_line line with
    | none => Except.error (ExtractError.malformed line)
    | some sv =>
      match lookupV syms sv.1 with
      | none => merge_loop rest (List.append syms [sv]) dupes
      | some v0 =>
        if v0 = sv.2 then merge_loop rest syms dupes
        else merge_loop rest syms (List.append dupes [line])

/-- Merge of all surviving export lines into one symbol table, raising
when `dupes` is nonempty at the end of the loop. -/
def merge_symbols (data : List String) : Except ExtractError SymTable :=
  match merge_loop data [] [] with
  | Except.error e => Except.error e
  | Except.ok (syms, dupes) =>
    if dupes = [] then Except.ok syms
    else Except.error (ExtractError.conflicts dupes)

/-- Successfully parsed `(name, version)` pairs of a line list. -/
def parsed (data : List String) : List (String × String) :=
  data.filterMap parse_export_line

/-- Version recorded for a name by a first-occurrence scan of `data`. -/
def firstVer (data : List String) (s : String) : Option String :=
  ((parsed data).find? (fun p => p.1 == s)).map Prod.snd

/-- Version the merge loop has recorded for a name while processing
`data` with accumulator `syms`: the accumulator entry if present,
otherwise the first occurrence in `data`. -/
def recVer (syms : SymTable) (data : List String) (s : String) : Option String :=
  match lookupV syms s with
  | some v => some v
  | none => firstVer data s

/-- Whether the merge loop appends `line` to `dupes` given the recorded
version function `g`. -/
def isDupe (g : String → Option String) (line : String) : Bool :=
  match parse_export_line line with
  | none => false
  | some sv =>
    match g sv.1 with
    | none => false
    | some v0 => v0 != sv.2

/-- Symbol table the merge loop builds: each name keeps the version of
its first occurrence. -/
def build_table : List String → SymTable → SymTable
  | [], syms => syms
  | line :: rest, syms =>
    match parse_export_line line with
    | none => syms
    | some sv =>
      match lookupV syms sv.1 with
      | none => build_table rest (List.append syms [sv])
      | some _ => build_table rest syms

/-- The lines the extractor reports in its duplicate-symbol exception:
every line whose version differs from the first version recorded for
its name, in input order. -/
def conf_lines (data : List String) : List String :=
  data.filter (isDupe (firstVer data))

/-- The linker-script file names the extractor skips before reading any
exports. -/
def linker_script_names : List String :=
  ["libc.so", "libm.so", "libpthread.so"]

/-- The clock symbol family dropped from librt objects inside the
2.17 to 2.27 window. -/
def clock_exclusions : List String :=
  ["clock_getcpuclockid", "clock_nanosleep", "clock_getres",
   "clock_settime", "clock_gettime"]

/-- The helper `starts_with_any(str, set)` of the extractor: whether
the string starts with any of the given items. -/
def starts_with_any (s : String) (pats : List String) : Bool :=
  pats.any (fun item => item.data.isPrefixOf s.data)

/-- The expression `f.split("/")[-1]`: last path component of a file
name. -/
def basename (path : String) : String :=
  String.mk ((split_on_slash path.data).getLastD [])

/-- Export lines one object file contributes to the merged data list:
linker-script names are skipped entirely, and inside the
`Version(2, 17) <= version <= Version(2, 27)` window the clock family
is filtered out of objects whose base name starts with `librt`. -/
def file_contribution (version : Version) (fname : String)
    (file_data : List String) : List String :=
  if linker_script_names.contains (basename fname) then []
  else
    if Version.le (Version.mk2 2 17) version ∧ Version.le version (Version.mk2 2 27) then
      if ("librt".data.isPrefixOf (basename fname).data) then
        file_data.filter (fun x => !starts_with_any x clock_exclusions)
      else file_data
    else file_data

/-- The `data` list accumulated over all object files, in file order. -/
def collect_data (files : List (String × List String)) (version : Version) :
    List String :=
  (files.map (fun fp => file_contribution version fp.1 fp.2)).flatten

/-- The pure content of `extract_versions_from_installed_folder`: each
object file is given as its path plus the `name@@version` lines that
`readelf` reports for it. -/
def extract_versions_from_installed_folder
    (files : List (String × List String)) (version : Version) :
    Except ExtractError SymTable :=
  merge_symbols (collect_data files version)

/-- Concrete pair of objects both exporting `clock_gettime`, as libc
and librt do in the affected glibc versions. -/
def clock_demo_files : List (String × List String) :=
  [ ("/install/lib/libc-x.so", ["clock_gettime@@GLIBC_2.17"]),
    ("/install/lib/librt-x.so", ["clock_gettime@@GLIBC_2.2.5"]) ]

/-- The fixed `pthread_funcs_in_libc_so` set literal of
`generate_header_string`, with every entry exactly as in the source. -/
def pthread_funcs_in_libc_so : List String :=
  [ "pthread_attr_destroy",
    "pthread_attr_init",
    "pthread_attr_getdetachstate",
    "pthread_attr_setdetachstate",
    "pthread_attr_getinheritsched",
    "pthread_attr_setinheritsched",
    "pthread_attr_getschedparam",
    "pthread_attr_setschedparam",
    "pthread_attr_getschedpolicy",
    "pthread_attr_setschedpolicy",
    "pthread_attr_getscope",
    "pthread_attr_setscope",
    "pthread_condattr_destroy",
    "pthread_condattr_init",
    "pthread_cond_broadcast",
    "pthread_cond_destroy",
    "pthread_cond_init",
    "pthread_cond_signalpthread_cond_wait",
    "pthread_cond_timedwait",
    "pthread_equal",
    "pthread_exit",
    "pthread_getschedparam",
    "pthread_setschedparam",
    "pthread_mutex_destroy",
    "pthread_mutex_init",
    "pthread_mutex_lock",
    "pthread_mutex_unlock",
    "pthread_self",
    "pthread_setcancelstate",
    "pthread_setcanceltype",
    "pthread_attr_init",
    "__register_atfork",
    "pthread_cond_init pthread_cond_destroy",
    "pthread_cond_wait pthread_cond_signal",
    "pthread_cond_broadcast pthread_cond_timedwait" ]

/-- The fixed `pthread_symbols_used_as_weak_in_libgcc` set literal. -/
def pthread_symbols_used_as_weak_in_libgcc : List String :=
  [ "pthread_setspecific",
    "__pthread_key_create",
    "pthread_getspecific",
    "pthread_key_create",
    "pthread_once" ]

/-- The fixed `pthread_symbols_used_as_weak_in_libstdcpp` set
literal. -/
def pthread_symbols_used_as_weak_in_libstdcpp : List String :=
  [ "pthread_setspecific",
    "pthread_key_delete",
    "__pthread_key_create",
    "pthread_once",
    "pthread_key_create",
    "pthread_getspecific",
    "pthread_join",
    "pthread_detach",
    "pthread_create" ]

/-- The pinned-version binding line
`__asm__(".symver sym,sym@ver");`. -/
def symver_line (sym ver : String) : String :=
  "__asm__(\".symver " ++ sym ++ "," ++ sym ++ "@" ++ ver ++ "\");"

/-- The binding element appended for one table symbol, after the three
conditional guard wraps of the source. -/
def guarded_line (sym ver : String) : String :=
  let line := symver_line sym ver
  let line :=
    if sym ∈ pthread_funcs_in_libc_so ∨
        sym ∈ pthread_symbols_used_as_weak_in_libstdcpp ∨
        sym ∈ pthread_symbols_used_as_weak_in_libgcc then
      "#ifdef _REENTRANT\n" ++ line ++ "\n#endif"
    else line
  let line :=
    if sym ∈ pthread_symbols_used_as_weak_in_libgcc then
      "#ifndef IN_LIBGCC2\n" ++ line ++ "\n#endif"
    else line
  let line :=
    if sym ∈ pthread_symbols_used_as_weak_in_libstdcpp then
      "#ifndef _GLIBCXX_SHARED\n" ++ line ++ "\n#endif"
    else line
  line

/-- The poison binding line appended for one missing symbol. -/
def poison_line (sym : String) : String :=
  "__asm__(\".symver " ++ sym ++ "," ++ sym ++
    "@GLIBC_WRAP_ERROR_SYMBOL_NOT_PRESENT_IN_REQUESTED_VERSION\");"

/-- The two include-guard lines that open every generated header. -/
def header_opening : List String :=
  [ "#if !defined(SET_GLIBC_LINK_VERSIONS_HEADER) && !defined(__ASSEMBLER__)",
    "#define SET_GLIBC_LINK_VERSIONS_HEADER" ]

/-- Python `sorted` on a list of strings: the unique permutation that
is sorted by the lexicographic string order; realised by insertion
sort. -/
def sortStr (l : List String) : List String :=
  List.insertionSort (fun a b => a ≤ b) l

/-- The sorted symbol sequence of the pinned-binding section,
`sorted(syms.keys())`. -/
def pinned_syms (syms : SymTable) : List String :=
  sortStr (keys syms)

/-- The sorted symbol sequence of the poison section,
`sorted(list(missingFuncs))`. -/
def poison_syms (missingFuncs : List String) : List String :=
  sortStr missingFuncs

/-- The `strings` list of `generate_header_string`: opening guard,
one guarded binding element per table symbol in sorted order, one
poison line per missing symbol in sorted order, the closing directive
and a final empty element. -/
def generate_header_lines (syms : SymTable) (missingFuncs : List String) :
    List String :=
  header_opening
    ++ (pinned_syms syms).map (fun sym => guarded_line sym (lookupD syms sym))
    ++ (poison_syms missingFuncs).map poison_line
    ++ ["#endif", ""]

/-- The generated header text, the newline join of the `strings`
list. -/
def generate_header_string (syms : SymTable) (missingFuncs : List String) :
    String :=
  String.intercalate "\n" (generate_header_lines syms missingFuncs)

/-- The global symbol union of `main`,
`allsyms = set.union(set(), *syms.values())`: iterating a dict yields
its keys, so this is the union of all key sets, modelled as a
duplicate-free list. -/
def all_syms_list (tables : List SymTable) : List String :=
  ((tables.map keys).flatten).dedup

/-- The `missingFuncs = allsyms - set(syms[version].keys())` set of
`main`, for the table of one version. -/
def missing_funcs (tables : List SymTable) (t : SymTable) : List String :=
  (all_syms_list tables).filter (fun s => !(keys t).contains s)

/-- A guard wrap around a binding line, one level of the conditional
guarding of `generate_header_string`. -/
def wrap_guard (g s : String) : String :=
  g ++ "\n" ++ s ++ "\n#endif"

/-- Conditional guard wrap: wraps exactly when the condition holds. -/
def wrap_guard_if (c : Prop) [Decidable c] (g s : String) : String :=
  if c then wrap_guard g s else s

/-- Concrete pair of symbol tables used to exhibit the missing-set and
completeness computations: table A has `foo` and `bar`, table B only
`foo`. -/
def table_A : SymTable := [("foo", "GLIBC_1.0"), ("bar", "GLIBC_1.0")]

/-- Companion table holding only `foo`. -/
def table_B : SymTable := [("foo", "GLIBC_2.0")]

deriving instance DecidableEq for Except

/-- String append is associative; used to relate the inline guard
concatenations of the source to the composable wrap form. -/
theorem strApp_assoc (a b c : String) : a ++ b ++ c = a ++ (b ++ c) := by
  cases a; cases b; cases c
  show String.mk _ = String.mk _
  rw [List.append_assoc]

/-- C6: a binding line is wrapped in the multithreading guard exactly
when the symbol is in the libc pthread set or either weak-use set, the
libgcc weak-use set additionally adds the IN_LIBGCC2 guard, and the
libstdcpp weak-use set additionally adds the _GLIBCXX_SHARED guard; the
three wraps compose independently and nest, and a symbol in none of the
sets gets the bare binding line. -/
theorem guard_wrapping_composes :
    (∀ sym ver : String,
      guarded_line sym ver =
        wrap_guard_if (sym ∈ pthread_symbols_used_as_weak_in_libstdcpp)
          "#ifndef _GLIBCXX_SHARED"
          (wrap_guard_if (sym ∈ pthread_symbols_used_as_weak_in_libgcc)
            "#ifndef IN_LIBGCC2"
            (wrap_guard_if
              (sym ∈ pthread_funcs_in_libc_so ∨
                sym ∈ pthread_symbols_used_as_weak_in_libstdcpp ∨
                sym ∈ pthread_symbols_used_as_weak_in_libgcc)
              "#ifdef _REENTRANT"
              (symver_line sym ver))))
    ∧ (∀ ver, guarded_line "pthread_setspecific" ver =
        wrap_guard "#ifndef _GLIBCXX_SHARED"
          (wrap_guard "#ifndef IN_LIBGCC2"
            (wrap_guard "#ifdef _REENTRANT"
              (symver_line "pthread_setspecific" ver))))
    ∧ (∀ ver, guarded_line "printf" ver = symver_line "printf" ver) := by
  refine ⟨?_, ?_, ?_⟩
  · intro sym ver
    by_cases h1 : sym ∈ pthread_symbols_used_as_weak_in_libstdcpp <;>
      by_cases h2 : sym ∈ pthread_symbols_used_as_weak_in_libgcc <;>
        by_cases h3 : sym ∈ pthread_funcs_in_libc_so ∨
          sym ∈ pthread_symbols_used_as_weak_in_libstdcpp ∨
          sym ∈ pthread_symbols_used_as_weak_in_libgcc <;>
      first
      | (exact absurd (Or.inr (Or.inl h1)) h3)
      | (exact absurd (Or.inr (Or.inr h2)) h3)
      | simp [guarded_line, wrap_guard_if, wrap_guard, h1, h2, h3]
  · intro ver; rfl
  · intro ver; rfl

/-- C7: patch selection applies every table entry whose inclusive
window contains the version; both boundaries are inside, and a version
strictly above the high end, such as 2.10 against the 2.5 to 2.9
window, is outside. -/
theorem patch_rule_matching :
    (∀ (p : String) (version : Version),
      p ∈ apply_patches_list version ↔
        ∃ lo hi, (p, lo, hi) ∈ patches_table ∧
          Version.le lo version ∧ Version.le version hi)
    ∧ apply_patches_list (Version.mk2 2 5) =
        ["extern_inline_addition.diff", "fix_obstack_compat.diff",
         "no-pattern-rule-mixing.diff", "fix_linker_failure.diff",
         "remove_ctors_dtors.diff", "fix_bad_version_checks_2.5.diff"]
    ∧ "fix_linker_failure.diff" ∈ apply_patches_list (Version.mk2 2 9)
    ∧ "fix_linker_failure.diff" ∉ apply_patches_list (Version.mk2 2 10)
    ∧ "hvsep-remove.diff" ∈ apply_patches_list (Version.mk2 2 16) := by
  refine ⟨?_, by decide, by decide, by decide, by decide⟩
  intro p version
  unfold apply_patches_list
  simp only [List.mem_map, List.mem_filter, Bool.and_eq_true, decide_eq_true_eq]
  constructor
  · rintro ⟨e, ⟨he, h1, h2⟩, rfl⟩
    exact ⟨e.2.1, e.2.2, by simpa using he, h1, h2⟩
  · rintro ⟨lo, hi, hmem, h1, h2⟩
    exact ⟨(p, lo, hi), ⟨hmem, h1, h2⟩, rfl⟩

/-- Witness for the patch rule matching theorem at a boundary version:
the window 2.16 to 2.16 contains version 2.16. -/
theorem patch_rule_matching_witness :
    "hvsep-remove.diff" ∈ apply_patches_list ⟨2, 16, 0⟩ :=
  (patch_rule_matching.1 "hvsep-remove.diff" ⟨2, 16, 0⟩).mpr
    ⟨⟨2, 16, 0⟩, ⟨2, 16, 0⟩, by decide, by decide, by decide⟩

/-- C9: the version type is totally ordered by lexicographic comparison
of the triple (major, minor, patch): trichotomy holds and the three
outcomes exclude each other, the order is transitive, the non-strict
order is the reflexive closure, the two-argument constructor defaults
patch to 0 so Version(2,5) equals Version(2,5,0) with equal hashes, and
2.10 is greater than 2.9. -/
theorem version_total_order :
    (∀ x y : Version, Version.lt x y ∨ x = y ∨ Version.lt y x)
    ∧ (∀ x y : Version, Version.lt x y → ¬x = y ∧ ¬Version.lt y x)
    ∧ (∀ x y z : Version, Version.lt x y → Version.lt y z → Version.lt x z)
    ∧ (∀ x y : Version, Version.le x y ↔ (Version.lt x y ∨ x = y))
    ∧ Version.mk2 2 5 = ⟨2, 5, 0⟩
    ∧ Version.pyHash (Version.mk2 2 5) = Version.pyHash ⟨2, 5, 0⟩
    ∧ Version.lt ⟨2, 9, 0⟩ ⟨2, 10, 0⟩ := by
  refine ⟨?_, ?_, ?_, ?_, rfl, rfl, by decide⟩
  · rintro ⟨a, b, c⟩ ⟨d, e, f⟩
    simp only [Version.lt, Version.mk.injEq]
    omega
  · rintro ⟨a, b, c⟩ ⟨d, e, f⟩ h
    simp only [Version.lt, Version.mk.injEq] at h ⊢
    omega
  · rintro ⟨a, b, c⟩ ⟨d, e, f⟩ ⟨g, h, i⟩ h1 h2
    simp only [Version.lt] at h1 h2 ⊢
    omega
  · rintro ⟨a, b, c⟩ ⟨d, e, f⟩
    simp only [Version.le, Version.lt, Version.mk.injEq]
    omega

/-- Witness for the version order theorem: 2.9 and 2.10 are distinct
and 2.10 is not below 2.9, from the strict inequality 2.9 < 2.10. -/
theorem version_total_order_witness :
    ¬(⟨2, 9, 0⟩ : Version) = ⟨2, 10, 0⟩ ∧
      ¬Version.lt ⟨2, 10, 0⟩ ⟨2, 9, 0⟩ :=
  version_total_order.2.1 ⟨2, 9, 0⟩ ⟨2, 10, 0⟩ (by decide)

/-- C10: on an empty symbol table and empty missing set the generator
still emits a well-formed header consisting of exactly the two opening
include-guard lines, the closing directive and a trailing newline, with
no binding lines. -/
theorem empty_header_well_formed :
    generate_header_string [] [] =
      "#if !defined(SET_GLIBC_LINK_VERSIONS_HEADER) && !defined(__ASSEMBLER__)\n#define SET_GLIBC_LINK_VERSIONS_HEADER\n#endif\n"
    ∧ generate_header_lines [] [] = header_opening ++ ["#endif", ""] := by
  exact ⟨by decide, rfl⟩

/-- Lookup misses exactly the names outside the key list. -/
theorem lookupV_eq_none (t : SymTable) (s : String) :
    lookupV t s = none ↔ s ∉ keys t := by
  unfold lookupV keys
  simp only [Option.map_eq_none', List.find?_eq_none, beq_iff_eq, List.mem_map]
  constructor
  · rintro h ⟨q, hq, rfl⟩
    exact h q hq rfl
  · intro h q hq heq
    exact h ⟨q, hq, heq⟩

/-- Lookup of a present pair returns its value when keys are unique. -/
theorem lookupV_mem (t : SymTable) (s v : String)
    (hnd : (keys t).Nodup) (hm : (s, v) ∈ t) : lookupV t s = some v := by
  induction t with
  | nil => cases hm
  | cons p t ih =>
    have hnd' : (keys t).Nodup := (List.nodup_cons.mp hnd).2
    rcases List.mem_cons.mp hm with he | hm'
    · subst he
      unfold lookupV
      rw [List.find?_cons]
      simp
    · have hs : s ∈ keys t := List.mem_map.mpr ⟨(s, v), hm', rfl⟩
      have hp : (p.1 == s) = false := by
        simp only [beq_eq_false_iff_ne, ne_eq]
        intro he
        exact (List.nodup_cons.mp hnd).1 (he ▸ hs)
      unfold lookupV
      rw [List.find?_cons, hp]
      exact ih hnd' hm'

/-- Lookup in a table extended by one fresh pair at the end. -/
theorem lookupV_append (t : SymTable) (p : String × String) (s : String) :
    lookupV (t ++ [p]) s =
      (lookupV t s).or (if p.1 == s then some p.2 else none) := by
  unfold lookupV
  rw [List.find?_append]
  cases h : List.find? (fun q => q.1 == s) t with
  | none =>
    by_cases hb : (p.1 == s) = true <;>
      simp [List.find?, hb]
  | some q => simp

/-- First-occurrence version of the name a well-formed head line
carries. -/
theorem firstVer_cons_self (line : String) (rest : List String)
    (sv : String × String) (h : parse_export_line line = some sv) :
    firstVer (line :: rest) sv.1 = some sv.2 := by
  unfold firstVer parsed
  rw [List.filterMap_cons_some h, List.find?_cons]
  simp

/-- First-occurrence version of any other name skips a well-formed
head line. -/
theorem firstVer_cons_of_ne (line : String) (rest : List String)
    (sv : String × String) (s : String)
    (h : parse_export_line line = some sv) (hne : sv.1 ≠ s) :
    firstVer (line :: rest) s = firstVer rest s := by
  unfold firstVer parsed
  rw [List.filterMap_cons_some h, List.find?_cons,
    show (sv.1 == s) = false by simpa using hne]

/-- Closed form of the merge loop on well-formed input: it never
raises, returns the first-occurrence table, and appends to `dupes`
exactly the lines whose version disagrees with the recorded version of
their name, where `g` is any function agreeing with the accumulator on
its keys and with the first occurrence in the remaining input
elsewhere. -/
theorem merge_loop_spec :
    ∀ (rest : List String) (syms : SymTable) (dupes : List String),
    (∀ l ∈ rest, (parse_export_line l).isSome) →
    ∀ g : String → Option String,
    (∀ s, s ∈ keys syms → g s = lookupV syms s) →
    (∀ s, s ∉ keys syms → g s = firstVer rest s) →
    merge_loop rest syms dupes =
      Except.ok (build_table rest syms, dupes ++ rest.filter (isDupe g)) := by
  intro rest
  induction rest with
  | nil =>
    intro syms dupes _ g _ _
    simp [merge_loop, build_table]
  | cons line rest ih =>
    intro syms dupes hWF g hg1 hg2
    obtain ⟨sv, hsv⟩ :=
      Option.isSome_iff_exists.mp (hWF line (List.mem_cons_self _ _))
    have hWF' : ∀ l ∈ rest, (parse_export_line l).isSome :=
      fun l hl => hWF l (List.mem_cons_of_mem _ hl)
    cases hsyms : lookupV syms sv.1 with
    | some v0 =>
      have hkey : sv.1 ∈ keys syms := by
        by_contra hk
        rw [(lookupV_eq_none syms sv.1).mpr hk] at hsyms
        cases hsyms
      have hgv : g sv.1 = some v0 := by rw [hg1 _ hkey, hsyms]
      have hdupe : isDupe g line = (v0 != sv.2) := by
        simp [isDupe, hsv, hgv]
      have hg2' : ∀ s, s ∉ keys syms → g s = firstVer rest s := by
        intro s hns
        have hne : sv.1 ≠ s := fun he => hns (he ▸ hkey)
        rw [hg2 s hns, firstVer_cons_of_ne line rest sv s hsv hne]
      have hbt : build_table (line :: rest) syms = build_table rest syms := by
        simp [build_table, hsv, hsyms]
      by_cases hv : v0 = sv.2
      · have hstep : merge_loop (line :: rest) syms dupes =
            merge_loop rest syms dupes := by
          simp [merge_loop, hsv, hsyms, hv]
        have hfl : List.filter (isDupe g) (line :: rest) =
            List.filter (isDupe g) rest := by
          rw [List.filter_cons]
          simp [hdupe, hv]
        rw [hstep, hbt, hfl]
        exact ih syms dupes hWF' g hg1 hg2'
      · have hstep : merge_loop (line :: rest) syms dupes =
            merge_loop rest syms (dupes ++ [line]) := by
          simp [merge_loop, hsv, hsyms, hv]
        have hfl : List.filter (isDupe g) (line :: rest) =
            line :: List.filter (isDupe g) rest := by
          rw [List.filter_cons]
          simp [hdupe, bne_iff_ne, hv]
        rw [hstep, hbt, hfl,
          show dupes ++ (line :: List.filter (isDupe g) rest) =
            (dupes ++ [line]) ++ List.filter (isDupe g) rest by simp]
        exact ih syms (dupes ++ [line]) hWF' g hg1 hg2'
    | none =>
      have hkey : sv.1 ∉ keys syms := (lookupV_eq_none _ _).mp hsyms
      have hgv : g sv.1 = some sv.2 := by
        rw [hg2 _ hkey, firstVer_cons_self line rest sv hsv]
      have hdupe : isDupe g line = false := by
        simp [isDupe, hsv, hgv]
      have hstep : merge_loop (line :: rest) syms dupes =
          merge_loop rest (syms ++ [sv]) dupes := by
        simp [merge_loop, hsv, hsyms]
      have hbt : build_table (line :: rest) syms =
          build_table rest (syms ++ [sv]) := by
        simp [build_table, hsv, hsyms]
      have hfl : List.filter (isDupe g) (line :: rest) =
          List.filter (isDupe g) rest := by
        rw [List.filter_cons]
        simp [hdupe]
      have hkeys' : keys (syms ++ [sv]) = keys syms ++ [sv.1] := by
        simp [keys]
      have hg1' : ∀ s, s ∈ keys (syms ++ [sv]) →
          g s = lookupV (syms ++ [sv]) s := by
        intro s hs
        rw [hkeys'] at hs
        rcases List.mem_append.mp hs with hs' | hs'
        · rw [hg1 s hs', lookupV_append]
          have hne : lookupV syms s ≠ none :=
            fun h0 => ((lookupV_eq_none _ _).mp h0) hs'
          obtain ⟨w, hw⟩ :=
            Option.isSome_iff_exists.mp (Option.ne_none_iff_isSome.mp hne)
          rw [hw]
          rfl
        · have hss : s = sv.1 := by simpa using hs'
          subst hss
          rw [lookupV_append, hsyms, hgv]
          simp
      have hg2' : ∀ s, s ∉ keys (syms ++ [sv]) → g s = firstVer rest s := by
        intro s hs
        rw [hkeys'] at hs
        have h1 : s ∉ keys syms := fun h => hs (List.mem_append.mpr (Or.inl h))
        have h2 : sv.1 ≠ s :=
          fun h => hs (List.mem_append.mpr (Or.inr (by simp [h])))
        rw [hg2 s h1, firstVer_cons_of_ne line rest sv s hsv h2]
      rw [hstep, hbt, hfl]
      exact ih (syms ++ [sv]) dupes hWF' g hg1' hg2'

/-- The table built by the merge keeps its keys unique. -/
theorem build_table_nodup :
    ∀ (rest : List String) (syms : SymTable),
    (keys syms).Nodup → (keys (build_table rest syms)).Nodup := by
  intro rest
  induction rest with
  | nil =>
    intro syms h
    simpa [build_table] using h
  | cons line rest ih =>
    intro syms h
    cases hp : parse_export_line line with
    | none => simpa [build_table, hp] using h
    | some sv =>
      cases hl : lookupV syms sv.1 with
      | some v0 => simpa [build_table, hp, hl] using ih syms h
      | none =>
        have hkey : sv.1 ∉ keys syms := (lookupV_eq_none _ _).mp hl
        have h' : (keys (syms ++ [sv])).Nodup := by
          rw [show keys (syms ++ [sv]) = keys syms ++ [sv.1] by simp [keys]]
          rw [List.nodup_append]
          exact ⟨h, List.nodup_singleton _, by simpa using hkey⟩
        simpa [build_table, hp, hl] using ih (syms ++ [sv]) h'

/-- The table built by the merge holds exactly the names of the parsed
input, on top of the accumulator's keys. -/
theorem build_table_mem :
    ∀ (rest : List String) (syms : SymTable) (s : String),
    (∀ l ∈ rest, (parse_export_line l).isSome) →
    (s ∈ keys (build_table rest syms) ↔
      s ∈ keys syms ∨ ∃ v, (s, v) ∈ parsed rest) := by
  intro rest
  induction rest with
  | nil =>
    intro syms s _
    simp [build_table, parsed]
  | cons line rest ih =>
    intro syms s hWF
    have hWF' : ∀ l ∈ rest, (parse_export_line l).isSome :=
      fun l hl => hWF l (List.mem_cons_of_mem _ hl)
    obtain ⟨sv, hp⟩ :=
      Option.isSome_iff_exists.mp (hWF line (List.mem_cons_self _ _))
    have hparsed : parsed (line :: rest) = sv :: parsed rest := by
      unfold parsed
      rw [List.filterMap_cons_some hp]
    cases hl : lookupV syms sv.1 with
    | some v0 =>
      have hkey : sv.1 ∈ keys syms := by
        by_contra hk
        rw [(lookupV_eq_none _ _).mpr hk] at hl
        cases hl
      rw [show build_table (line :: rest) syms = build_table rest syms by
          simp [build_table, hp, hl],
        ih syms s hWF', hparsed]
      constructor
      · rintro (h | ⟨v, hv⟩)
        · exact Or.inl h
        · exact Or.inr ⟨v, List.mem_cons_of_mem _ hv⟩
      · rintro (h | ⟨v, hv⟩)
        · exact Or.inl h
        · rcases List.mem_cons.mp hv with he | hm
          · have hes : s = sv.1 := congrArg Prod.fst he
            exact Or.inl (hes ▸ hkey)
          · exact Or.inr ⟨v, hm⟩
    | none =>
      rw [show build_table (line :: rest) syms =
            build_table rest (syms ++ [sv]) by simp [build_table, hp, hl],
        ih (syms ++ [sv]) s hWF', hparsed,
        show keys (syms ++ [sv]) = keys syms ++ [sv.1] by simp [keys]]
      constructor
      · rintro (h | ⟨v, hv⟩)
        · rcases List.mem_append.mp h with h' | h'
          · exact Or.inl h'
          · have hes : s = sv.1 := by simpa using h'
            exact Or.inr ⟨sv.2, by simp [hes]⟩
        · exact Or.inr ⟨v, List.mem_cons_of_mem _ hv⟩
      · rintro (h | ⟨v, hv⟩)
        · exact Or.inl (List.mem_append.mpr (Or.inl h))
        · rcases List.mem_cons.mp hv with he | hm
          · have hes : s = sv.1 := congrArg Prod.fst he
            exact Or.inl (List.mem_append.mpr (Or.inr (by simp [hes])))
          · exact Or.inr ⟨v, hm⟩

/-- On well-formed input, merging either returns the first-occurrence
table or raises with exactly the conflicting lines. -/
theorem merge_symbols_spec (data : List String)
    (hWF : ∀ l ∈ data, (parse_export_line l).isSome) :
    merge_symbols data =
      if conf_lines data = [] then Except.ok (build_table data [])
      else Except.error (ExtractError.conflicts (conf_lines data)) := by
  have h := merge_loop_spec data [] [] hWF (firstVer data)
    (by intro s hs; simp [keys] at hs)
    (fun s _ => rfl)
  unfold merge_symbols
  rw [h]
  simp [conf_lines]

/-- Conflicting lines exist exactly when some name is parsed with two
different versions. -/
theorem conf_lines_iff (data : List String)
    (hWF : ∀ l ∈ data, (parse_export_line l).isSome) :
    conf_lines data ≠ [] ↔
      ∃ s v1 v2, (s, v1) ∈ parsed data ∧ (s, v2) ∈ parsed data ∧ v1 ≠ v2 := by
  constructor
  · intro h
    obtain ⟨l, hl⟩ := List.exists_mem_of_ne_nil _ h
    obtain ⟨hld, hdup⟩ := List.mem_filter.mp hl
    obtain ⟨sv, hp⟩ := Option.isSome_iff_exists.mp (hWF l hld)
    simp only [isDupe, hp] at hdup
    cases hf : firstVer data sv.1 with
    | none =>
      rw [hf] at hdup
      cases hdup
    | some v0 =>
      rw [hf] at hdup
      have hne : v0 ≠ sv.2 := by simpa [bne_iff_ne] using hdup
      have hfind : ∃ q, (parsed data).find? (fun p => p.1 == sv.1) = some q ∧
          q.2 = v0 := by
        unfold firstVer at hf
        cases hq : (parsed data).find? (fun p => p.1 == sv.1) with
        | none => rw [hq] at hf; cases hf
        | some q =>
          rw [hq] at hf
          exact ⟨q, rfl, by simpa using hf⟩
      obtain ⟨q, hq, hq2⟩ := hfind
      have hqmem : q ∈ parsed data := List.mem_of_find?_eq_some hq
      have hq1 : q.1 = sv.1 := by simpa using List.find?_some hq
      have hsvmem : sv ∈ parsed data := List.mem_filterMap.mpr ⟨l, hld, hp⟩
      refine ⟨sv.1, v0, sv.2, ?_, ?_, hne⟩
      · have hqe : q = (sv.1, v0) := by
          cases q
          simp only [Prod.mk.injEq]
          exact ⟨hq1, hq2⟩
        exact hqe ▸ hqmem
      · simpa using hsvmem
  · rintro ⟨s, v1, v2, h1, h2, hne⟩
    have hsome : ((parsed data).find? (fun p => p.1 == s)).isSome := by
      rw [List.find?_isSome]
      exact ⟨(s, v1), h1, by simp⟩
    obtain ⟨q, hq⟩ := Option.isSome_iff_exists.mp hsome
    have hfv : firstVer data s = some q.2 := by
      unfold firstVer
      rw [hq]
      rfl
    have hpick : ∃ v', (s, v') ∈ parsed data ∧ q.2 ≠ v' := by
      by_cases hv : q.2 = v1
      · exact ⟨v2, h2, by rw [hv]; exact hne⟩
      · exact ⟨v1, h1, hv⟩
    obtain ⟨v', hv'm, hv'ne⟩ := hpick
    obtain ⟨l, hld, hp⟩ := List.mem_filterMap.mp hv'm
    have hmem : l ∈ conf_lines data := by
      apply List.mem_filter.mpr
      refine ⟨hld, ?_⟩
      simp [isDupe, hp, hfv, bne_iff_ne, hv'ne]
    exact List.ne_nil_of_mem hmem

/-- C2: on well-formed export lines, the merge raises the duplicate
exception exactly when some name is parsed with two different versions;
the raised list is exactly the lines disagreeing with the first
recorded version of their name, gathered over the whole input rather
than stopping at the first conflict; and on success the table has one
entry per distinct name, so same-version duplicates collapse to a
single entry and no partial table escapes a conflict. -/
theorem merge_conflict_policy (data : List String)
    (hWF : ∀ l ∈ data, (parse_export_line l).isSome) :
    ((∃ d, merge_symbols data = Except.error (ExtractError.conflicts d)) ↔
      ∃ s v1 v2, (s, v1) ∈ parsed data ∧ (s, v2) ∈ parsed data ∧ v1 ≠ v2)
    ∧ (∀ d, merge_symbols data = Except.error (ExtractError.conflicts d) →
        d = conf_lines data)
    ∧ (∀ t, merge_symbols data = Except.ok t →
        (keys t).Nodup ∧ ∀ s, s ∈ keys t ↔ ∃ v, (s, v) ∈ parsed data) := by
  have hspec := merge_symbols_spec data hWF
  refine ⟨?_, ?_, ?_⟩
  · rw [← conf_lines_iff data hWF]
    constructor
    · rintro ⟨d, hd⟩ hnil
      rw [hspec, if_pos hnil] at hd
      cases hd
    · intro hne
      rw [hspec, if_neg hne]
      exact ⟨_, rfl⟩
  · intro d hd
    by_cases hnil : conf_lines data = []
    · rw [hspec, if_pos hnil] at hd
      cases hd
    · rw [hspec, if_neg hnil] at hd
      have : conf_lines data = d := by simpa using hd
      exact this.symm
  · intro t ht
    by_cases hnil : conf_lines data = []
    · rw [hspec, if_pos hnil] at ht
      have hbt : build_table data [] = t := by simpa using ht
      refine ⟨?_, ?_⟩
      · rw [← hbt]
        exact build_table_nodup data [] (by simp [keys])
      · intro s
        rw [← hbt, build_table_mem data [] s hWF]
        simp [keys]
    · rw [hspec, if_neg hnil] at ht
      cases ht

/-- Witness for the conflict policy at the two-line input
`foo@@1.0`, `foo@@2.0`: the merge raises the duplicate exception. -/
theorem merge_conflict_policy_witness :
    ∃ d, merge_symbols ["foo@@1.0", "foo@@2.0"] =
      Except.error (ExtractError.conflicts d) :=
  ((merge_conflict_policy ["foo@@1.0", "foo@@2.0"] (by decide)).1).mpr
    ⟨"foo", "1.0", "2.0", by decide, by decide, by decide⟩

/-- A line the loop cannot unpack aborts the merge with the malformed
failure, before any conflict check. -/
theorem merge_loop_malformed :
    ∀ (rest : List String) (syms : SymTable) (dupes : List String),
    (∃ l ∈ rest, parse_export_line l = none) →
    ∃ b, merge_loop rest syms dupes = Except.error (ExtractError.malformed b) ∧
      parse_export_line b = none := by
  intro rest
  induction rest with
  | nil =>
    intro syms dupes h
    simp at h
  | cons line rest ih =>
    intro syms dupes h
    cases hl' : parse_export_line line with
    | none =>
      refine ⟨line, ?_, hl'⟩
      simp [merge_loop, hl']
    | some sv =>
      have hrest : ∃ l ∈ rest, parse_export_line l = none := by
        rcases h with ⟨l, hl, hnone⟩
        rcases List.mem_cons.mp hl with rfl | hm
        · rw [hl'] at hnone
          cases hnone
        · exact ⟨l, hm, hnone⟩
      cases hsyms : lookupV syms sv.1 with
      | none =>
        rw [show merge_loop (line :: rest) syms dupes =
            merge_loop rest (syms ++ [sv]) dupes by simp [merge_loop, hl', hsyms]]
        exact ih (syms ++ [sv]) dupes hrest
      | some v0 =>
        by_cases hv : v0 = sv.2
        · rw [show merge_loop (line :: rest) syms dupes =
              merge_loop rest syms dupes by simp [merge_loop, hl', hsyms, hv]]
          exact ih syms dupes hrest
        · rw [show merge_loop (line :: rest) syms dupes =
              merge_loop rest syms (dupes ++ [line]) by
                simp [merge_loop, hl', hsyms, hv]]
          exact ih syms (dupes ++ [line]) hrest

/-- C8: an export line that does not split as exactly one name and one
version around the double at-sign makes extraction fail with the
malformed-line error; no symbol table is produced and the line is never
silently skipped. -/
theorem malformed_export_fatal (data : List String) (line : String)
    (hmem : line ∈ data) (hbad : parse_export_line line = none) :
    (∀ t, merge_symbols data ≠ Except.ok t) ∧
      ∃ b, merge_symbols data = Except.error (ExtractError.malformed b) ∧
        parse_export_line b = none := by
  obtain ⟨b, hb, hbn⟩ := merge_loop_malformed data [] [] ⟨line, hmem, hbad⟩
  have hms : merge_symbols data = Except.error (ExtractError.malformed b) := by
    unfold merge_symbols
    rw [hb]
  refine ⟨?_, b, hms, hbn⟩
  intro t ht
  rw [hms] at ht
  cases ht

/-- Witness for the malformed-line theorem: a line with no double
at-sign aborts the merge. -/
theorem malformed_export_fatal_witness :
    (∀ t, merge_symbols ["foo", "bar@@GLIBC_2.5"] ≠ Except.ok t) ∧
      ∃ b, merge_symbols ["foo", "bar@@GLIBC_2.5"] =
        Except.error (ExtractError.malformed b) ∧
        parse_export_line b = none :=
  malformed_export_fatal ["foo", "bar@@GLIBC_2.5"] "foo" (by decide) (by decide)

/-- C3: outside the inclusive 2.17 to 2.27 window a non-skipped object
contributes its export lines unchanged; inside the window an object
whose base name starts with librt has the clock family filtered out;
consequently the concrete libc/librt pair exporting clock_gettime
merges to a single entry without conflict at version 2.20, and at
version 2.16 the same pair raises the duplicate conflict. -/
theorem librt_clock_exclusion :
    (∀ version : Version,
      ¬(Version.le (Version.mk2 2 17) version ∧
          Version.le version (Version.mk2 2 27)) →
      ∀ (fname : String) (file_data : List String),
        linker_script_names.contains (basename fname) = false →
        file_contribution version fname file_data = file_data)
    ∧ (∀ (version : Version) (fname : String) (file_data : List String),
        Version.le (Version.mk2 2 17) version →
        Version.le version (Version.mk2 2 27) →
        linker_script_names.contains (basename fname) = false →
        "librt".data.isPrefixOf (basename fname).data = true →
        file_contribution version fname file_data =
          file_data.filter (fun x => !starts_with_any x clock_exclusions))
    ∧ extract_versions_from_installed_folder clock_demo_files (Version.mk2 2 20) =
        Except.ok [("clock_gettime", "GLIBC_2.17")]
    ∧ extract_versions_from_installed_folder clock_demo_files (Version.mk2 2 16) =
        Except.error (ExtractError.conflicts ["clock_gettime@@GLIBC_2.2.5"]) := by
  refine ⟨?_, ?_, by decide, by decide⟩
  · intro version hwin fname fd hskip
    have hskip' : basename fname ∉ linker_script_names := by simpa using hskip
    simp [file_contribution, hskip', hwin]
  · intro version fname fd h1 h2 hskip hrt
    have hskip' : basename fname ∉ linker_script_names := by simpa using hskip
    simp [file_contribution, hskip', h1, h2, hrt]

/-- Witness for the exclusion-window theorem: at version 2.16, below
the window, a librt object keeps its clock_gettime line. -/
theorem librt_clock_exclusion_witness :
    file_contribution (Version.mk2 2 16) "/install/lib/librt-x.so"
      ["clock_gettime@@GLIBC_2.2.5"] = ["clock_gettime@@GLIBC_2.2.5"] :=
  librt_clock_exclusion.1 (Version.mk2 2 16) (by decide)
    "/install/lib/librt-x.so" ["clock_gettime@@GLIBC_2.2.5"] (by decide)

/-- Sorting a string list yields a list sorted by the string order. -/
theorem sortStr_sorted (l : List String) :
    List.Sorted (fun a b : String => a ≤ b) (sortStr l) :=
  List.sorted_insertionSort _ l

/-- Sorting permutes the input list. -/
theorem sortStr_perm (l : List String) : List.Perm (sortStr l) l :=
  List.perm_insertionSort _ l

/-- Sorting is invariant under permutation of the input, which makes
the emitted order independent of dictionary and set iteration order. -/
theorem sortStr_eq_of_perm (l1 l2 : List String) (h : List.Perm l1 l2) :
    sortStr l1 = sortStr l2 :=
  List.eq_of_perm_of_sorted
    ((sortStr_perm l1).trans (h.trans (sortStr_perm l2).symm))
    (sortStr_sorted l1) (sortStr_sorted l2)

/-- Sorting preserves element counts. -/
theorem sortStr_count (l : List String) (s : String) :
    (sortStr l).count s = l.count s :=
  (sortStr_perm l).count_eq s

/-- Sorting preserves membership. -/
theorem sortStr_mem (l : List String) (s : String) :
    s ∈ sortStr l ↔ s ∈ l :=
  (sortStr_perm l).mem_iff

/-- C5: header synthesis is a deterministic function of the symbol
table and missing set as unordered data: permuting the table entries or
the missing list leaves the output string byte-identical, and both the
pinned section and the poison section are emitted in sorted
symbol-name order. -/
theorem header_generation_deterministic :
    (∀ (syms1 syms2 : SymTable) (missing1 missing2 : List String),
      (keys syms1).Nodup → List.Perm syms1 syms2 →
      List.Perm missing1 missing2 →
      generate_header_string syms1 missing1 =
        generate_header_string syms2 missing2)
    ∧ (∀ syms : SymTable,
        List.Sorted (fun a b : String => a ≤ b) (pinned_syms syms))
    ∧ (∀ missingFuncs : List String,
        List.Sorted (fun a b : String => a ≤ b) (poison_syms missingFuncs)) := by
  refine ⟨?_, fun syms => sortStr_sorted _, fun m => sortStr_sorted _⟩
  intro syms1 syms2 m1 m2 hnd hperm hpm
  unfold generate_header_string generate_header_lines
  have hkeys : List.Perm (keys syms1) (keys syms2) := hperm.map Prod.fst
  have hnd2 : (keys syms2).Nodup := hkeys.nodup_iff.mp hnd
  have hpinned : pinned_syms syms1 = pinned_syms syms2 :=
    sortStr_eq_of_perm _ _ hkeys
  have hpoison : poison_syms m1 = poison_syms m2 := sortStr_eq_of_perm _ _ hpm
  have hlookup : ∀ sym ∈ pinned_syms syms1,
      lookupD syms1 sym = lookupD syms2 sym := by
    intro sym hs
    have hs1 : sym ∈ keys syms1 := (sortStr_mem _ _).mp hs
    obtain ⟨p, hp, hp1⟩ := List.mem_map.mp hs1
    have hpe : (sym, p.2) = p := by
      cases p
      simp only [Prod.mk.injEq, and_true]
      exact hp1.symm
    have hv1 : lookupV syms1 sym = some p.2 :=
      lookupV_mem syms1 sym p.2 hnd (hpe ▸ hp)
    have hm2 : (sym, p.2) ∈ syms2 := hperm.mem_iff.mp (hpe ▸ hp)
    have hv2 : lookupV syms2 sym = some p.2 :=
      lookupV_mem syms2 sym p.2 hnd2 hm2
    unfold lookupD
    rw [hv1, hv2]
  have hmap : (pinned_syms syms1).map
        (fun sym => guarded_line sym (lookupD syms1 sym)) =
      (pinned_syms syms2).map
        (fun sym => guarded_line sym (lookupD syms2 sym)) := by
    rw [← hpinned]
    apply List.map_congr_left
    intro a ha
    rw [hlookup a ha]
  rw [hmap, hpoison]

/-- Witness for determinism: reordering both the table and the missing
list leaves the generated header unchanged. -/
theorem header_generation_deterministic_witness :
    generate_header_string [("b", "GLIBC_2.5"), ("a", "GLIBC_2.6")] ["d", "c"] =
      generate_header_string [("a", "GLIBC_2.6"), ("b", "GLIBC_2.5")] ["c", "d"] :=
  header_generation_deterministic.1 _ _ _ _ (by decide) (by decide) (by decide)

/-- C1: for a name in the global union, the generated header emits
exactly one binding for it: the pinned and poison sections of the line
list together contain the name exactly once, as a pinned binding when
the name is a key of the version's table and as a poison binding when
it is in the missing set, never neither and never both. -/
theorem header_binding_exactly_one (tables : List SymTable) (t : SymTable)
    (hnd : (keys t).Nodup) (name : String)
    (hu : name ∈ all_syms_list tables) :
    (generate_header_lines t (missing_funcs tables t) =
      header_opening
        ++ (pinned_syms t).map (fun sym => guarded_line sym (lookupD t sym))
        ++ (poison_syms (missing_funcs tables t)).map poison_line
        ++ ["#endif", ""])
    ∧ ((pinned_syms t).count name +
        (poison_syms (missing_funcs tables t)).count name = 1)
    ∧ (name ∈ keys t ↔
        (pinned_syms t).count name = 1 ∧
        (poison_syms (missing_funcs tables t)).count name = 0)
    ∧ (name ∉ keys t ↔
        (pinned_syms t).count name = 0 ∧
        (poison_syms (missing_funcs tables t)).count name = 1) := by
  have hmnd : (missing_funcs tables t).Nodup :=
    (List.nodup_dedup _).filter _
  have hpc : (pinned_syms t).count name = (keys t).count name :=
    sortStr_count _ _
  have hqc : (poison_syms (missing_funcs tables t)).count name =
      (missing_funcs tables t).count name := sortStr_count _ _
  by_cases hk : name ∈ keys t
  · have h1 : (pinned_syms t).count name = 1 := by
      rw [hpc]
      exact List.count_eq_one_of_mem hnd hk
    have hnm : name ∉ missing_funcs tables t := by
      intro hmem
      obtain ⟨_, hpred⟩ := List.mem_filter.mp hmem
      simp at hpred
      exact hpred hk
    have h0 : (poison_syms (missing_funcs tables t)).count name = 0 := by
      rw [hqc]
      exact List.count_eq_zero_of_not_mem hnm
    exact ⟨rfl, by omega, by simp [hk, h1, h0], by simp [hk, h1, h0]⟩
  · have h0 : (pinned_syms t).count name = 0 := by
      rw [hpc]
      exact List.count_eq_zero_of_not_mem hk
    have hm : name ∈ missing_funcs tables t :=
      List.mem_filter.mpr ⟨hu, by simpa using hk⟩
    have h1 : (poison_syms (missing_funcs tables t)).count name = 1 := by
      rw [hqc]
      exact List.count_eq_one_of_mem hmnd hm
    exact ⟨rfl, by omega, by simp [hk, h0, h1], by simp [hk, h0, h1]⟩

/-- Witness for completeness: in the two-table family, `bar` is absent
from table B, so B's header carries it exactly once as a poison
binding and not as a pinned binding. -/
theorem header_binding_exactly_one_witness :
    (pinned_syms table_B).count "bar" = 0 ∧
      (poison_syms (missing_funcs [table_A, table_B] table_B)).count "bar" = 1 :=
  ((header_binding_exactly_one [table_A, table_B] table_B (by decide) "bar"
    (by decide)).2.2.2).mp (by decide)

/-- C4: the missing set of a version is the union of all tables' key
sets minus that version's own keys, with the same global union for
every version; on the concrete family A contains foo and bar while B
contains only foo, so the union is both names, A misses nothing and B
misses exactly bar. -/
theorem missing_set_spec :
    (∀ (tables : List SymTable) (t : SymTable) (s : String),
      s ∈ missing_funcs tables t ↔
        (∃ u ∈ tables, s ∈ keys u) ∧ s ∉ keys t)
    ∧ all_syms_list [table_A, table_B] = ["bar", "foo"]
    ∧ missing_funcs [table_A, table_B] table_A = []
    ∧ missing_funcs [table_A, table_B] table_B = ["bar"] := by
  refine ⟨?_, by decide, by decide, by decide⟩
  intro tables t s
  unfold missing_funcs all_syms_list
  rw [List.mem_filter, List.mem_dedup, List.mem_flatten]
  simp

/-- Witness for the missing-set characterization: `bar` is missing for
table B because table A has it and B does not. -/
theorem missing_set_spec_witness :
    "bar" ∈ missing_funcs [table_A, table_B] table_B :=
  (missing_set_spec.1 [table_A, table_B] table_B "bar").mpr
    ⟨⟨table_A, by decide, by decide⟩, by decide⟩
